import Mathlib

/-!
Verification of the yamlpage flat-file document store (`yamlpage.py`).

The store maps a string key to a file on disk: `put` serializes a document
with `dumps` and writes it at the path derived by the backend; `get` reads
the text back, parses it, and applies the filter pipeline.

The shallow embedding below translates the repository's own code:
path derivation (`SingleFolderBackend.key_to_path`,
`MultiFolderBackend.key_to_path`, including Python's `posixpath.normpath`,
`posixpath.join`, `str.lstrip`, `str.split`, `str.replace` helpers they
call), the `dumps` preprocessing pipeline, the facade (`YamlPage.get`,
`YamlPage.put`, `YamlPage.exists`) and its `apply_filters` loop.

The spec declares the PyYAML parser/encoder an external black box
("`parse(text) -> document`, `encode(document) -> text`"), so the yaml
layer is modelled at the document level as a faithful codec: a stored
well-formed file holds the document structure that `yaml.dump` received
(an ordered list of fields with the style markers `literal`/`unquoted`
that `dumps` attached), and `yaml.load` recovers exactly that structure
(the style wrappers are `str` subclasses, so loading returns the plain
underlying values).  Malformed stored text is a separate constructor on
which the parser raises.
-/

/-- A document field value: a string, or any other scalar passed through
to the codec untouched (modelled by an integer). -/
inductive Value where
  | str (s : String)
  | int (n : Int)
deriving DecidableEq, Repr

/-- A value as prepared by `dumps`: string values are wrapped in the
`literal` (block style) or `unquoted` (plain style) `str` subclasses of
`yamlpage.py`; non-strings pass through. -/
inductive DVal where
  | lit (s : String)
  | unq (s : String)
  | raw (n : Int)
deriving DecidableEq, Repr

/-- Concatenation of a list of char lists (`itertools`-free model of
joining the pieces produced by `str.replace` / tab expansion). -/
def flatCat : List (List Char) → List Char
  | [] => []
  | h :: t => h ++ flatCat t

/-- Python `str.split(sep)` for a one-character separator, on char lists:
`"a|b".split("|") = ["a","b"]`, `"".split("|") = [""]`. -/
def pySplitC (sep : Char) : List Char → List (List Char)
  | [] => [[]]
  | c :: rest =>
    match pySplitC sep rest with
    | [] => [[c]]
    | h :: t => if c = sep then [] :: h :: t else (c :: h) :: t

/-- Python `sep.join(parts)` for a one-character separator. -/
def joinC (sep : Char) : List (List Char) → List Char
  | [] => []
  | [p] => p
  | p :: q :: t => p ++ sep :: joinC sep (q :: t)

/-- The whitespace characters stripped by Python `str.rstrip()`
(ASCII whitespace; the values normalized by `dumps` contain no other
whitespace kinds that matter to the claims). -/
def pyIsSpace (c : Char) : Bool :=
  c == ' ' || c == '\t' || c == '\n' || c == '\r' || c == '\x0b' || c == '\x0c'

/-- Python `str.rstrip()` on a char list. -/
def pyRstrip (l : List Char) : List Char := (l.reverse.dropWhile pyIsSpace).reverse

/-- `v.replace('\t', '    ')` of `dumps`. -/
def expandTabs (l : List Char) : List Char :=
  flatCat (l.map (fun c => if c = '\t' then [' ', ' ', ' ', ' '] else [c]))

/-- The multi-line string normalization of `dumps` (yamlpage.py lines
293–297): `v.replace('\r','')`, then `v.replace('\t','    ')`, then
`'\n'.join(r.rstrip() for r in v.split('\n'))`. -/
def normalizeChars (l : List Char) : List Char :=
  joinC '\n' ((pySplitC '\n' (expandTabs (l.filter (fun c => !(c == '\r'))))).map pyRstrip)

/-- `normalizeChars` lifted to `String`. -/
def normalizeML (s : String) : String := ⟨normalizeChars s.data⟩

/-- The per-value branch of the `dumps` loop (yamlpage.py lines 291–300):
a string containing a newline is normalized and marked `literal`; any
other string is marked `unquoted`; non-strings pass through. -/
def styleValue : Value → DVal
  | .str s => if s.data.contains '\n' then .lit (normalizeML s) else .unq s
  | .int n => .raw n

/-- Loading a dumped value back: `literal` and `unquoted` are `str`
subclasses, so the codec returns the plain underlying string. -/
def stripStyle : DVal → Value
  | .lit s => .str s
  | .unq s => .str s
  | .raw n => .int n

/-- The net effect of a `put`/`get` round trip on one field value. -/
def normValue (v : Value) : Value := stripStyle (styleValue v)

/-- Python `dict` assignment `d[k] = v` on an insertion-ordered
association list: updating an existing key keeps its position, a new key
is appended at the end (both `dict` and `OrderedDict` behave so). -/
def dictSet {α : Type} (d : List (String × α)) (k : String) (v : α) : List (String × α) :=
  if d.any (fun p => p.1 == k) then d.map (fun p => if p.1 == k then (p.1, v) else p)
  else d ++ [(k, v)]

/-- Python `d[k]` / `d.pop(k)` lookup: the value at key `k`, if present. -/
def dictGet {α : Type} (d : List (String × α)) (k : String) : Option α :=
  (d.find? (fun p => p.1 == k)).map (fun p => p.2)

/-- The association list left after `d.pop(k)`. -/
def dictPopRest {α : Type} (d : List (String × α)) (k : String) : List (String × α) :=
  d.filter (fun p => !(p.1 == k))

/-- The `OrderedDict`-building loop of `dumps`: `data[k] = styled v` over
the pair sequence in order. -/
def buildOD (l : List (String × Value)) : List (String × DVal) :=
  l.foldl (fun d p => dictSet d p.1 (styleValue p.2)) []

/-- The comparison `sorted(items.items(), key=lambda x: x[0])` sorts by:
field name, ascending. -/
def keyLE (a b : String × Value) : Prop := a.1 ≤ b.1

instance : DecidableRel keyLE := fun a b => inferInstanceAs (Decidable (a.1 ≤ b.1))

instance : IsTotal (String × Value) keyLE := ⟨fun a b => le_total a.1 b.1⟩

instance : IsTrans (String × Value) keyLE := ⟨fun _ _ _ h h' => le_trans h h'⟩

/-- `sorted(items.items(), key=lambda x: x[0])` (a stable sort by field
name; on the unique keys of a `dict` any sort agrees). -/
def pySortItems (l : List (String × Value)) : List (String × Value) :=
  l.insertionSort keyLE

/-- The `data` argument accepted by `YamlPage.put` / `dumps`: an unordered
mapping (a Python `dict`, insertion-ordered with unique keys), a
pair-shaped ordered sequence (for which `dict(items)` succeeds), or a
plain non-pair sequence (for which `dict(items)` raises and the whole
input is encoded as a sequence). -/
inductive PyObj where
  | dict (l : List (String × Value))
  | pairs (l : List (String × Value))
  | plainList (l : List Value)
deriving DecidableEq, Repr

/-- The document structure handed to `yaml.dump` by `dumps`: either the
`OrderedDict` of styled fields, or the raw sequence fallback. -/
inductive Dumped where
  | doc (d : List (String × DVal))
  | seq (l : List Value)
deriving DecidableEq, Repr

/-- `dumps` (yamlpage.py lines 265–303) at the document level: sort a
`dict` ascending by field name, build the `OrderedDict` of styled values
for pair-shaped input, fall back to the raw sequence otherwise. -/
def dumps : PyObj → Dumped
  | .dict l => .doc (buildOD (pySortItems l))
  | .pairs l => .doc (buildOD l)
  | .plainList l => .seq l

/-- The order in which `yaml.dump` emits the fields of a dumped document
(the `OrderedDict` order, by the registered `ordered_dict_presenter`). -/
def fieldNames : Dumped → List String
  | .doc d => d.map (fun p => p.1)
  | .seq _ => []

/-- A decoded document as `yaml.load` returns it: a mapping or a
sequence. -/
inductive Doc where
  | map (l : List (String × Value))
  | seq (l : List Value)
deriving DecidableEq, Repr

/-- `yaml.load` applied to the text `yaml.dump` produced (the codec is
the spec's black box and is faithful at the document level): the style
wrappers disappear, everything else is unchanged. -/
def decodeDumped : Dumped → Doc
  | .doc d => .map (d.map (fun p => (p.1, stripStyle p.2)))
  | .seq l => .seq l

/-- The filter registry: a mapping from filter tag to a value transform
(the `filters` argument of `YamlPage`; absence of a tag models
`filter not in self.filters`). -/
abbrev Registry := String → Option (Value → Value)

/-- The inner loop of `apply_filters` over the filter tags of one field
(yamlpage.py lines 230–234): a registered tag transforms the running
value, an unregistered tag is re-appended to the accumulating name. -/
def applyTags (reg : Registry) (tags : List String) (base : String) (v : Value) :
    String × Value :=
  tags.foldl
    (fun kv tag =>
      match reg tag with
      | none => (kv.1 ++ "|" ++ tag, kv.2)
      | some f => (kv.1, f kv.2))
    (base, v)

/-- `k.split("|")` of `apply_filters`, as a list of strings. -/
def pipeSplit (s : String) : List String := (pySplitC '|' s.data).map (fun l => ⟨l⟩)

/-- The `for k in list(page)` loop of `apply_filters` over a mapping page:
iterate over the snapshot of the original keys, pop each key containing
`|`, fold its tags, and re-assign at the resulting name.  `none` models a
raised `KeyError` (`page.pop(k)` on a missing key). -/
def filterFold (reg : Registry) : List String → List (String × Value) →
    Option (List (String × Value))
  | [], st => some st
  | k :: ks, st =>
    if k.data.contains '|' then
      match dictGet st k with
      | none => none
      | some v =>
        let parts := pipeSplit k
        let kv := applyTags reg parts.tail (parts.headD "") v
        filterFold reg ks (dictSet (dictPopRest st k) kv.1 kv.2)
    else filterFold reg ks st

/-- Does a sequence item survive the `apply_filters` loop?  Iterating a
list page, `"|" not in k` raises `TypeError` on a non-string item, and
`page.pop(k)` raises `TypeError` on a string item containing `|`
(`list.pop` takes an index). -/
def pipeFreeStr : Value → Bool
  | .str s => !(s.data.contains '|')
  | .int _ => false

/-- `YamlPage.apply_filters` (yamlpage.py lines 224–235) on a decoded
page.  `none` models a raised `TypeError`/`KeyError`. -/
def applyFilters (reg : Registry) : Doc → Option Doc
  | .map d => (filterFold reg (d.map (fun p => p.1)) d).map Doc.map
  | .seq l => if l.all pipeFreeStr then some (.seq l) else none

/-- The text content of a stored file, at the document level: well-formed
yaml text carrying a dumped document, text on which `yaml.load` raises,
or the empty (falsy) text. -/
inductive Content where
  | ydoc (d : Dumped)
  | invalid
  | empty
deriving DecidableEq, Repr

/-- A file on disk: readable UTF-8 text, bytes that fail UTF-8 decoding
(`UnicodeDecodeError`), or an unreadable file (`IOError` on `open`). -/
inductive Entry where
  | file (c : Content)
  | badUtf8
  | unreadable
deriving DecidableEq, Repr

/-- The filesystem: which entry, if any, lives at each path. -/
abbrev FS := String → Option Entry

/-- `FileSystemBackend.get` (yamlpage.py lines 118–124): the decoded text
at the derived path, or `None` when the path is missing, unreadable, or
not valid UTF-8 (those exceptions are swallowed). -/
def backendRead (fs : FS) (path : String) : Option Content :=
  match fs path with
  | some (.file c) => some c
  | _ => none

/-- The errors `YamlPage.get` can raise: a yaml parse error from
`yaml.load`, or a runtime error (`TypeError`/`KeyError`) from
`apply_filters`. -/
inductive GetErr where
  | parse
  | runtime
deriving DecidableEq, Repr

/-- `YamlPage.get` (yamlpage.py lines 212–218): read the backend text;
falsy text (missing file or empty string) yields `None`; otherwise parse
and apply the filter pipeline. -/
def pageGet (reg : Registry) (fs : FS) (ktp : String → String) (key : String) :
    Except GetErr (Option Doc) :=
  match backendRead fs (ktp key) with
  | none => .ok none
  | some .empty => .ok none
  | some .invalid => .error .parse
  | some (.ydoc d) =>
    match applyFilters reg (decodeDumped d) with
    | none => .error .runtime
    | some page => .ok (some page)

/-- `YamlPage.exists` via `FileSystemBackend.exists`: `os.path.isfile` on
the derived path. -/
def pageExists (fs : FS) (ktp : String → String) (key : String) : Bool :=
  (fs (ktp key)).isSome

/-- `YamlPage.put` (yamlpage.py lines 220–222): write `dumps data` at the
derived path (overwriting unconditionally). -/
def pagePut (fs : FS) (ktp : String → String) (key : String) (data : PyObj) : FS :=
  fun p => if p = ktp key then some (.file (.ydoc (dumps data))) else fs p

/-- `FileSystemBackend.__init__`: `self.file_extension = '.' +
file_extension.lstrip('.')`. -/
def mkFileExt (e : String) : String := "." ++ (⟨e.data.dropWhile (fun c => c == '.')⟩ : String)

/-- `key.replace('/', self.path_delimiter)` of
`SingleFolderBackend.key_to_path`. -/
def pyReplaceSlash (delim key : String) : String :=
  ⟨flatCat (key.data.map (fun c => if c = '/' then delim.data else [c]))⟩

/-- `posixpath.join(a, b)`: `b` if it is absolute, otherwise `a`
concatenated with `b`, inserting `/` unless `a` is empty or already ends
with `/`. -/
def posixJoin (a b : String) : String :=
  if b.data.head? = some '/' then b
  else if a.data = [] ∨ a.data.getLast? = some '/' then a ++ b
  else a ++ "/" ++ b

/-- `SingleFolderBackend.key_to_path` (yamlpage.py lines 156–167):
replace `/` by the delimiter, then `root + ext` for a falsy result and
`join(root, path) + ext` otherwise.  `ext` stands for the stored
`self.file_extension` (see `mkFileExt`). -/
def keyToPathSingle (root ext delim key : String) : String :=
  let path := pyReplaceSlash delim key
  if path.data = [] then root ++ ext
  else posixJoin root path ++ ext

/-- The `..` path component. -/
def ddC : List Char := ['.', '.']

/-- The `.` path component. -/
def dotC : List Char := ['.']

/-- One step of the component loop of `posixpath.normpath`: skip empty
and `.` components, append a normal component (or a `..` that cannot be
collapsed), pop the previous component on a collapsible `..`. -/
def normStep (isl : Bool) (acc : List (List Char)) (comp : List Char) : List (List Char) :=
  if comp = [] ∨ comp = dotC then acc
  else if comp ≠ ddC ∨ (isl = false ∧ acc = []) ∨ (acc ≠ [] ∧ acc.getLast? = some ddC) then
    acc ++ [comp]
  else if acc ≠ [] then acc.dropLast
  else acc

/-- The component loop of `posixpath.normpath` over the `/`-split input. -/
def normSegs (isl : Bool) (comps : List (List Char)) : List (List Char) :=
  comps.foldl (normStep isl) []

/-- The `initial_slashes` count of `posixpath.normpath`: 1 for an
absolute path, 2 for the special exactly-two-slashes prefix, else 0. -/
def islOf (d : List Char) : Nat :=
  if d.take 1 = ['/'] then
    if d.take 2 = ['/', '/'] ∧ ¬ d.take 3 = ['/', '/', '/'] then 2 else 1
  else 0

/-- The body of `posixpath.normpath` on a nonempty input: the remembered
leading slashes followed by the `/`-joined normalized components. -/
def normpathCore (d : List Char) : List Char :=
  List.replicate (islOf d) '/'
    ++ joinC '/' (normSegs (decide (islOf d ≠ 0)) (pySplitC '/' d))

/-- `posixpath.normpath`: empty input maps to `.`, up to two leading
slashes are remembered, components are normalized, and an empty result
maps to `.`. -/
def pyNormpath (s : String) : String :=
  if s.data = [] then "."
  else if normpathCore s.data = [] then "."
  else ⟨normpathCore s.data⟩

/-- Is the character `.`? (the continuation test of `lstrip('.')`). -/
def isDotChar (c : Char) : Bool := c == '.'

/-- Is the character one of the stripped set of `lstrip('./')`? -/
def isDS (c : Char) : Bool := c == '.' || c == '/'

/-- Is a component made of dots only (so that `lstrip('./')` consumes it
entirely together with the following separator)? -/
def allDots (l : List Char) : Bool := l.all isDotChar

/-- Shape of the ordinary (non-`..`) components kept by `normpath`:
nonempty, not `.`, not `..`, slash-free. -/
def goodSeg (r : List Char) : Prop := r ≠ ddC ∧ r ≠ [] ∧ r ≠ dotC ∧ '/' ∉ r

/-- `os.path.normpath(key).lstrip('./')` of
`MultiFolderBackend.key_to_path`: strip every leading `.` and `/`
character from the normalized key. -/
def dropDotSlash (s : String) : String :=
  ⟨s.data.dropWhile isDS⟩

/-- `MultiFolderBackend.key_to_path` (yamlpage.py lines 186–201). -/
def keyToPathMulti (root ext key : String) : String :=
  let path := dropDotSlash (pyNormpath key)
  if path.data = [] then root ++ ext
  else posixJoin root path ++ ext

/-- A concrete filter transform for examples, playing the role of the
`misaka.html` markdown renderer of the usage doctest: any registered
transform is opaque to the store, so one concrete choice suffices. -/
def mdRender : Value → Value
  | .str s => .str ("<p>" ++ s ++ "</p>")
  | v => v

/-- The example registry `{"md": mdRender}` (`filters={"md": ...}`). -/
def regMd : Registry := fun t => if t = "md" then some mdRender else none

/-- The registry of a store constructed with no filters (the default). -/
def regNone : Registry := fun _ => none

/-- The default-configuration key-to-path map of `YamlPage('./content')`:
`SingleFolderBackend` rooted at `./content` with delimiter `^` and
extension `yaml`. -/
def ktpContent : String → String :=
  keyToPathSingle "./content" (mkFileExt "yaml") "^"

/-- The empty filesystem: a fresh store's view of disk. -/
def fsEmpty : FS := fun _ => none

/-- A filesystem holding one malformed (unparsable) stored file at the
default path of key `bad`. -/
def fsInvalid : FS :=
  fun p => if p = ktpContent "bad" then some (.file .invalid) else none

/-- A filesystem holding one empty (zero-length) stored file at the
default path of key `k`. -/
def fsEmptyFile : FS :=
  fun p => if p = ktpContent "k" then some (.file .empty) else none

/-! ### Association-list (Python `dict`) lemmas -/

theorem dictGet_cons {α : Type} (p : String × α) (t : List (String × α)) (k : String) :
    dictGet (p :: t) k = if p.1 == k then some p.2 else dictGet t k := by
  by_cases h : (p.1 == k) = true
  · simp [dictGet, List.find?_cons_of_pos, h]
  · simp only [Bool.not_eq_true] at h
    simp [dictGet, List.find?_cons_of_neg, h]

theorem dictSet_of_not_mem {α : Type} (d : List (String × α)) (k : String) (v : α)
    (h : ∀ p ∈ d, p.1 ≠ k) : dictSet d k v = d ++ [(k, v)] := by
  have hany : d.any (fun p => p.1 == k) = false := by
    rw [List.any_eq_false]
    intro p hp
    simpa using h p hp
  simp [dictSet, hany]

theorem nodup_val_eq {α : Type} :
    ∀ {d : List (String × α)}, (d.map Prod.fst).Nodup →
      ∀ {k : String} {v₁ v₂ : α}, (k, v₁) ∈ d → (k, v₂) ∈ d → v₁ = v₂ := by
  intro d
  induction d with
  | nil => intro _ k v₁ v₂ h1 _; cases h1
  | cons p t ih =>
    intro hnd k v₁ v₂ h1 h2
    rw [List.map_cons, List.nodup_cons] at hnd
    rcases List.mem_cons.mp h1 with h1 | h1 <;> rcases List.mem_cons.mp h2 with h2 | h2
    · rw [← h1] at h2; exact (Prod.mk.injEq _ _ _ _ ▸ h2).2.symm
    · exfalso
      exact hnd.1 (h1 ▸ (List.mem_map.mpr ⟨(k, v₂), h2, rfl⟩))
    · exfalso
      exact hnd.1 (h2 ▸ (List.mem_map.mpr ⟨(k, v₁), h1, rfl⟩))
    · exact ih hnd.2 h1 h2

theorem mem_of_dictGet_eq_some {α : Type} :
    ∀ {d : List (String × α)} {k : String} {v : α}, dictGet d k = some v → (k, v) ∈ d := by
  intro d
  induction d with
  | nil => intro k v h; cases h
  | cons p t ih =>
    intro k v h
    rw [dictGet_cons] at h
    by_cases hpk : (p.1 == k) = true
    · rw [if_pos hpk] at h
      have hk : p.1 = k := by simpa using hpk
      have hv : p.2 = v := by injection h
      exact List.mem_cons.mpr (Or.inl (by rw [← hk, ← hv]))
    · rw [if_neg hpk] at h
      exact List.mem_cons.mpr (Or.inr (ih h))

theorem dictGet_eq_some_of_mem {α : Type} :
    ∀ {d : List (String × α)}, (d.map Prod.fst).Nodup →
      ∀ {k : String} {v : α}, (k, v) ∈ d → dictGet d k = some v := by
  intro d
  induction d with
  | nil => intro _ k v h; cases h
  | cons p t ih =>
    intro hnd k v h
    rw [List.map_cons, List.nodup_cons] at hnd
    rw [dictGet_cons]
    rcases List.mem_cons.mp h with h | h
    · rw [← h]
      simp
    · have hpk : p.1 ≠ k := by
        intro e
        exact hnd.1 (e ▸ List.mem_map.mpr ⟨(k, v), h, rfl⟩)
      rw [if_neg (by simpa using hpk)]
      exact ih hnd.2 h

theorem dictGet_perm {α : Type} {d d' : List (String × α)} (hp : d.Perm d')
    (hnd : (d.map Prod.fst).Nodup) (k : String) : dictGet d k = dictGet d' k := by
  have hnd' : (d'.map Prod.fst).Nodup := ((hp.map Prod.fst).nodup_iff).mp hnd
  cases hd : dictGet d k with
  | some v =>
    exact (dictGet_eq_some_of_mem hnd' (hp.mem_iff.mp (mem_of_dictGet_eq_some hd))).symm
  | none =>
    cases hd' : dictGet d' k with
    | none => rfl
    | some v =>
      have hm : (k, v) ∈ d := hp.mem_iff.mpr (mem_of_dictGet_eq_some hd')
      rw [dictGet_eq_some_of_mem hnd hm] at hd
      cases hd

theorem dictGet_map_snd {α β : Type} (f : α → β) :
    ∀ (l : List (String × α)) (k : String),
      dictGet (l.map (fun p => (p.1, f p.2))) k = (dictGet l k).map f := by
  intro l
  induction l with
  | nil => intro k; rfl
  | cons p t ih =>
    intro k
    rw [List.map_cons, dictGet_cons, dictGet_cons]
    by_cases hpk : (p.1 == k) = true
    · simp [hpk]
    · simp only [Bool.not_eq_true] at hpk
      simp [hpk, ih]

theorem not_mem_dictPopRest_keys {α : Type} (d : List (String × α)) (k : String) :
    ∀ p ∈ dictPopRest d k, p.1 ≠ k := by
  intro p hp
  have := (List.mem_filter.mp hp).2
  simpa using this

theorem perm_pop {α : Type} :
    ∀ {d : List (String × α)}, (d.map Prod.fst).Nodup →
      ∀ {k : String} {v : α}, dictGet d k = some v →
        d.Perm ((k, v) :: dictPopRest d k) := by
  intro d
  induction d with
  | nil => intro _ k v h; cases h
  | cons p t ih =>
    intro hnd k v h
    rw [List.map_cons, List.nodup_cons] at hnd
    rw [dictGet_cons] at h
    by_cases hpk : (p.1 == k) = true
    · rw [if_pos hpk] at h
      have hk : p.1 = k := by simpa using hpk
      have hv : p.2 = v := by injection h
      have hfil : dictPopRest (p :: t) k = t := by
        unfold dictPopRest
        have h0 : List.filter (fun q => !(q.1 == k)) (p :: t)
            = List.filter (fun q => !(q.1 == k)) t := by
          simp [List.filter_cons, hpk]
        rw [h0, List.filter_eq_self.mpr]
        intro q hq
        have : q.1 ≠ k := by
          intro e
          exact hnd.1 (hk ▸ e ▸ List.mem_map.mpr ⟨q, hq, rfl⟩)
        simpa using this
      rw [hfil]
      have : p = (k, v) := by
        rw [← hk, ← hv]
      rw [this]
    · rw [if_neg hpk] at h
      have hfil : dictPopRest (p :: t) k = p :: dictPopRest t k := by
        unfold dictPopRest
        have hb : (p.1 == k) = false := by simpa using hpk
        simp [List.filter_cons, hb]
      rw [hfil]
      exact ((ih hnd.2 h).cons p).trans (List.Perm.swap (k, v) p _)

/-! ### Split / join lemmas for Python `str.split` and `sep.join` -/

theorem pySplitC_ne_nil (sep : Char) (l : List Char) : pySplitC sep l ≠ [] := by
  cases l with
  | nil => simp [pySplitC]
  | cons c rest =>
    unfold pySplitC
    cases h : pySplitC sep rest with
    | nil => simp
    | cons a b =>
      by_cases hc : c = sep <;> simp [hc]

theorem pySplitC_cons_eq (sep c : Char) (rest : List Char) {a : List Char}
    {b : List (List Char)} (h : pySplitC sep rest = a :: b) :
    pySplitC sep (c :: rest) = if c = sep then [] :: a :: b else (c :: a) :: b := by
  simp only [pySplitC]
  rw [h]

theorem splitC_no_sep {sep : Char} :
    ∀ {l : List Char}, sep ∉ l → pySplitC sep l = [l] := by
  intro l
  induction l with
  | nil => intro _; rfl
  | cons c rest ih =>
    intro h
    have hc : ¬ c = sep := fun e => h (e ▸ List.mem_cons_self c rest)
    have hr : sep ∉ rest := fun m => h (List.mem_cons_of_mem c m)
    rw [pySplitC_cons_eq sep c rest (ih hr), if_neg hc]

theorem splitC_append {sep : Char} :
    ∀ {l : List Char} (r : List Char), sep ∉ l →
      pySplitC sep (l ++ sep :: r) = l :: pySplitC sep r := by
  intro l
  induction l with
  | nil =>
    intro r _
    show pySplitC sep (sep :: r) = [] :: pySplitC sep r
    cases h : pySplitC sep r with
    | nil => exact absurd h (pySplitC_ne_nil sep r)
    | cons a b => rw [pySplitC_cons_eq sep sep r h, if_pos rfl]
  | cons c t ih =>
    intro r h
    have hc : ¬ c = sep := fun e => h (e ▸ List.mem_cons_self c t)
    have ht : sep ∉ t := fun m => h (List.mem_cons_of_mem c m)
    show pySplitC sep (c :: (t ++ sep :: r)) = (c :: t) :: pySplitC sep r
    rw [pySplitC_cons_eq sep c _ (ih r ht), if_neg hc]

theorem splitC_sep_not_mem {sep : Char} :
    ∀ (l : List Char), ∀ part ∈ pySplitC sep l, sep ∉ part := by
  intro l
  induction l with
  | nil =>
    intro part hp
    simp [pySplitC] at hp
    simp [hp]
  | cons c rest ih =>
    intro part hp
    cases h : pySplitC sep rest with
    | nil => exact absurd h (pySplitC_ne_nil sep rest)
    | cons a b =>
      rw [pySplitC_cons_eq sep c rest h] at hp
      have ha : sep ∉ a := ih a (h ▸ List.mem_cons_self a b)
      by_cases hc : c = sep
      · rw [if_pos hc] at hp
        rcases List.mem_cons.mp hp with hp | hp
        · simp [hp]
        · exact ih part (h ▸ hp)
      · rw [if_neg hc] at hp
        rcases List.mem_cons.mp hp with hp | hp
        · subst hp
          intro hm
          rcases List.mem_cons.mp hm with hm | hm
          · exact hc hm.symm
          · exact ha hm
        · exact ih part (h ▸ List.mem_cons_of_mem a hp)

theorem foldl_join_shift (sep : Char) :
    ∀ (t : List (List Char)) (x y : List Char),
      t.foldl (fun a p => a ++ sep :: p) (x ++ y)
        = x ++ t.foldl (fun a p => a ++ sep :: p) y := by
  intro t
  induction t with
  | nil => intro x y; rfl
  | cons h t ih =>
    intro x y
    simp only [List.foldl_cons]
    rw [List.append_assoc]
    exact ih x (y ++ sep :: h)

theorem splitC_rejoin (sep : Char) :
    ∀ (l : List Char),
      (pySplitC sep l).tail.foldl (fun a p => a ++ sep :: p) ((pySplitC sep l).headD [])
        = l := by
  intro l
  induction l with
  | nil => rfl
  | cons c rest ih =>
    cases h : pySplitC sep rest with
    | nil => exact absurd h (pySplitC_ne_nil sep rest)
    | cons a b =>
      rw [h] at ih
      simp only [List.headD_cons, List.tail_cons] at ih
      rw [pySplitC_cons_eq sep c rest h]
      by_cases hc : c = sep
      · rw [if_pos hc]
        simp only [List.headD_cons, List.tail_cons, List.foldl_cons, List.nil_append]
        rw [show sep :: a = [sep] ++ a from rfl, foldl_join_shift, ih, hc]
        rfl
      · rw [if_neg hc]
        simp only [List.headD_cons, List.tail_cons]
        rw [show c :: a = [c] ++ a from rfl, foldl_join_shift, ih]
        rfl

theorem str_append_data (a b : List Char) :
    (⟨a⟩ : String) ++ (⟨b⟩ : String) = ⟨a ++ b⟩ := rfl

theorem string_foldl_mk :
    ∀ (t : List (List Char)) (h : List Char),
      (t.map (fun l => (⟨l⟩ : String))).foldl (fun a s => a ++ "|" ++ s) ⟨h⟩
        = ⟨t.foldl (fun a p => a ++ '|' :: p) h⟩ := by
  intro t
  induction t with
  | nil => intro h; rfl
  | cons x t ih =>
    intro h
    simp only [List.map_cons, List.foldl_cons]
    have hx : (⟨h⟩ : String) ++ "|" ++ (⟨x⟩ : String) = ⟨h ++ '|' :: x⟩ := by
      rw [show ("|" : String) = ⟨['|']⟩ from rfl, str_append_data, str_append_data,
        List.append_assoc]
      rfl
    rw [hx, ih]

theorem applyTags_none :
    ∀ (tags : List String) (base : String) (v : Value),
      applyTags (fun _ => none) tags base v
        = (tags.foldl (fun a t => a ++ "|" ++ t) base, v) := by
  intro tags
  induction tags with
  | nil => intro base v; rfl
  | cons t ts ih =>
    intro base v
    show applyTags (fun _ => none) ts (base ++ "|" ++ t) v = _
    rw [ih]
    rfl

theorem pipeRejoin (k : String) :
    (pipeSplit k).tail.foldl (fun a t => a ++ "|" ++ t) ((pipeSplit k).headD "") = k := by
  unfold pipeSplit
  cases h : pySplitC '|' k.data with
  | nil => exact absurd h (pySplitC_ne_nil '|' k.data)
  | cons a b =>
    rw [List.map_cons]
    simp only [List.tail_cons, List.headD_cons]
    rw [string_foldl_mk]
    have hr := splitC_rejoin '|' k.data
    rw [h] at hr
    simp only [List.headD_cons, List.tail_cons] at hr
    rw [hr]

theorem applyTags_none_rejoin (k : String) (v : Value) :
    applyTags (fun _ => none) (pipeSplit k).tail ((pipeSplit k).headD "") v = (k, v) := by
  rw [applyTags_none, pipeRejoin]

/-! ### The filter pipeline with an empty registry permutes a mapping page -/

theorem filterFold_none_perm :
    ∀ (ks : List String) (st : List (String × Value)),
      (st.map Prod.fst).Nodup → (∀ k ∈ ks, k ∈ st.map Prod.fst) →
      ∃ st', filterFold (fun _ => none) ks st = some st' ∧ st'.Perm st := by
  intro ks
  induction ks with
  | nil => intro st _ _; exact ⟨st, rfl, List.Perm.refl st⟩
  | cons k ks ih =>
    intro st hnd hmem
    by_cases hk : k.data.contains '|'
    · have hkst : k ∈ st.map Prod.fst := hmem k (List.mem_cons_self k ks)
      obtain ⟨p, hp, hpk⟩ := List.mem_map.mp hkst
      have hv : (k, p.2) ∈ st := by
        rw [← hpk]
        exact hp
      have hget : dictGet st k = some p.2 := dictGet_eq_some_of_mem hnd hv
      have hperm1 : st.Perm ((k, p.2) :: dictPopRest st k) := perm_pop hnd hget
      have hset : dictSet (dictPopRest st k) k p.2 = dictPopRest st k ++ [(k, p.2)] :=
        dictSet_of_not_mem _ _ _ (not_mem_dictPopRest_keys st k)
      have hperm2 : (dictSet (dictPopRest st k) k p.2).Perm st := by
        rw [hset]
        exact (List.perm_append_singleton _ _).trans hperm1.symm
      have hnd2 : ((dictSet (dictPopRest st k) k p.2).map Prod.fst).Nodup :=
        ((hperm2.map Prod.fst).nodup_iff).mpr hnd
      have hmem2 : ∀ k' ∈ ks, k' ∈ (dictSet (dictPopRest st k) k p.2).map Prod.fst := by
        intro k' hk'
        exact ((hperm2.map Prod.fst).mem_iff).mpr (hmem k' (List.mem_cons_of_mem k hk'))
      obtain ⟨st', hrun, hperm3⟩ := ih (dictSet (dictPopRest st k) k p.2) hnd2 hmem2
      refine ⟨st', ?_, hperm3.trans hperm2⟩
      simp only [filterFold, hk, if_true, hget]
      rw [applyTags_none_rejoin k p.2]
      exact hrun
    · have : filterFold (fun _ => none) (k :: ks) st = filterFold (fun _ => none) ks st := by
        simp only [filterFold, hk]
        simp
      rw [this]
      exact ih st hnd (fun k' h' => hmem k' (List.mem_cons_of_mem k h'))

/-! ### The `OrderedDict` build on unique keys is a plain map -/

theorem foldl_dictSet_eq_append :
    ∀ (l : List (String × Value)) (acc : List (String × DVal)),
      (∀ p ∈ l, ∀ q ∈ acc, q.1 ≠ p.1) → (l.map Prod.fst).Nodup →
      l.foldl (fun d p => dictSet d p.1 (styleValue p.2)) acc
        = acc ++ l.map (fun p => (p.1, styleValue p.2)) := by
  intro l
  induction l with
  | nil => intro acc _ _; simp
  | cons p t ih =>
    intro acc hdisj hnd
    rw [List.map_cons, List.nodup_cons] at hnd
    rw [List.foldl_cons, List.map_cons]
    have hstep : dictSet acc p.1 (styleValue p.2) = acc ++ [(p.1, styleValue p.2)] :=
      dictSet_of_not_mem _ _ _ (fun q hq => hdisj p (List.mem_cons_self p t) q hq)
    rw [hstep]
    have hdisj2 : ∀ p' ∈ t, ∀ q ∈ acc ++ [(p.1, styleValue p.2)], q.1 ≠ p'.1 := by
      intro p' hp' q hq
      rcases List.mem_append.mp hq with hq | hq
      · exact hdisj p' (List.mem_cons_of_mem p hp') q hq
      · have : q = (p.1, styleValue p.2) := by simpa using hq
        rw [this]
        intro e
        exact hnd.1 (e ▸ List.mem_map.mpr ⟨p', hp', rfl⟩)
    rw [ih _ hdisj2 hnd.2, List.append_assoc]
    rfl

theorem buildOD_nodup (l : List (String × Value)) (hnd : (l.map Prod.fst).Nodup) :
    buildOD l = l.map (fun p => (p.1, styleValue p.2)) := by
  unfold buildOD
  simpa using foldl_dictSet_eq_append l [] (by simp) hnd

theorem decode_dumps_pairs (l : List (String × Value)) (hnd : (l.map Prod.fst).Nodup) :
    decodeDumped (dumps (.pairs l)) = .map (l.map (fun p => (p.1, normValue p.2))) := by
  simp only [dumps, decodeDumped, buildOD_nodup l hnd, List.map_map]
  rfl

/-! ### Sorting lemmas -/

theorem pySortItems_perm (l : List (String × Value)) : (pySortItems l).Perm l :=
  List.perm_insertionSort keyLE l

theorem pySortItems_sorted (l : List (String × Value)) :
    List.Sorted keyLE (pySortItems l) :=
  List.sorted_insertionSort keyLE l

theorem decode_dumps_dict (l : List (String × Value)) (hnd : (l.map Prod.fst).Nodup) :
    decodeDumped (dumps (.dict l))
      = .map ((pySortItems l).map (fun p => (p.1, normValue p.2))) := by
  have hnd' : ((pySortItems l).map Prod.fst).Nodup :=
    (((pySortItems_perm l).map Prod.fst).nodup_iff).mpr hnd
  simp only [dumps, decodeDumped, buildOD_nodup _ hnd', List.map_map]
  rfl

theorem sorted_keys_strict (l : List (String × Value)) (hnd : (l.map Prod.fst).Nodup) :
    ((pySortItems l).map Prod.fst).Pairwise (fun a b => a < b) := by
  have hle : ((pySortItems l).map Prod.fst).Pairwise (fun a b => a ≤ b) :=
    List.Pairwise.map Prod.fst (fun _ _ h => h) (pySortItems_sorted l)
  have hne : ((pySortItems l).map Prod.fst).Pairwise (fun a b => a ≠ b) :=
    (((pySortItems_perm l).map Prod.fst).nodup_iff).mpr hnd
  exact (hle.and hne).imp (fun h => lt_of_le_of_ne h.1 h.2)

/-! ### Structure of the `normpath` component loop -/

theorem getLast?_mem_of_eq_some {α : Type} :
    ∀ {l : List α} {a : α}, l.getLast? = some a → a ∈ l := by
  intro l
  induction l with
  | nil => intro a h; cases h
  | cons x t ih =>
    intro a h
    cases t with
    | nil =>
      simp only [List.getLast?_singleton, Option.some.injEq] at h
      simp [h]
    | cons y t2 =>
      rw [List.getLast?_cons_cons] at h
      exact List.mem_cons_of_mem x (ih h)

theorem replicate_succ_getLast? {α : Type} (i : Nat) (a : α) :
    (List.replicate (i + 1) a).getLast? = some a := by
  induction i with
  | zero => rfl
  | succ j ih =>
    rw [List.replicate_succ, List.replicate_succ]
    rw [List.replicate_succ] at ih
    rw [List.getLast?_cons_cons]
    exact ih

theorem normStep_structure (isl : Bool) (comp : List Char) (hcomp : '/' ∉ comp)
    (i : Nat) (rest : List (List Char)) (hrest : ∀ r ∈ rest, goodSeg r) :
    ∃ j rest', normStep isl (List.replicate i ddC ++ rest) comp
        = List.replicate j ddC ++ rest' ∧ ∀ r ∈ rest', goodSeg r := by
  unfold normStep
  by_cases h1 : comp = [] ∨ comp = dotC
  · rw [if_pos h1]
    exact ⟨i, rest, rfl, hrest⟩
  · rw [if_neg h1]
    push_neg at h1
    by_cases h2 : comp ≠ ddC ∨ (isl = false ∧ List.replicate i ddC ++ rest = [])
        ∨ (List.replicate i ddC ++ rest ≠ []
            ∧ (List.replicate i ddC ++ rest).getLast? = some ddC)
    · rw [if_pos h2]
      by_cases hdd : comp = ddC
      · subst hdd
        have hrestnil : rest = [] := by
          rcases h2 with h2 | h2 | h2
          · exact absurd rfl h2
          · exact (List.append_eq_nil.mp h2.2).2
          · by_contra hne
            have := List.getLast?_append_of_ne_nil (List.replicate i ddC) hne
            rw [this] at h2
            have hmem := getLast?_mem_of_eq_some h2.2
            exact (hrest ddC hmem).1 rfl
        subst hrestnil
        refine ⟨i + 1, [], ?_, by simp⟩
        rw [List.append_nil, List.append_nil, ← List.replicate_succ']
      · refine ⟨i, rest ++ [comp], by rw [List.append_assoc], ?_⟩
        intro r hr
        rcases List.mem_append.mp hr with hr | hr
        · exact hrest r hr
        · have : r = comp := by simpa using hr
          subst this
          exact ⟨hdd, h1.1, h1.2, hcomp⟩
    · rw [if_neg h2]
      push_neg at h2
      obtain ⟨hdd, hnil, hlast⟩ := h2
      by_cases hacc : List.replicate i ddC ++ rest = []
      · rw [if_neg (by simpa using hacc)]
        exact ⟨i, rest, rfl, hrest⟩
      · rw [if_pos (by simpa using hacc)]
        have hrne : rest ≠ [] := by
          intro hre
          subst hre
          rw [List.append_nil] at hacc hlast
          cases i with
          | zero => exact hacc rfl
          | succ j => exact (hlast hacc) (replicate_succ_getLast? j ddC)
        obtain ⟨b, rest2, hbr⟩ := List.exists_cons_of_ne_nil hrne
        subst hbr
        rw [List.dropLast_append_cons]
        refine ⟨i, (b :: rest2).dropLast, rfl, ?_⟩
        intro r hr
        exact hrest r ((List.dropLast_sublist (b :: rest2)).subset hr)

theorem foldl_normStep_structure (isl : Bool) :
    ∀ (comps : List (List Char)), (∀ cp ∈ comps, '/' ∉ cp) →
      ∀ (i : Nat) (rest : List (List Char)), (∀ r ∈ rest, goodSeg r) →
      ∃ j rest', comps.foldl (normStep isl) (List.replicate i ddC ++ rest)
          = List.replicate j ddC ++ rest' ∧ ∀ r ∈ rest', goodSeg r := by
  intro comps
  induction comps with
  | nil => intro _ i rest hrest; exact ⟨i, rest, rfl, hrest⟩
  | cons c t ih =>
    intro hcomps i rest hrest
    rw [List.foldl_cons]
    obtain ⟨j, rest', heq, hgood⟩ :=
      normStep_structure isl c (hcomps c (List.mem_cons_self c t)) i rest hrest
    rw [heq]
    exact ih (fun cp hcp => hcomps cp (List.mem_cons_of_mem c hcp)) j rest' hgood

theorem normSegs_structure (isl : Bool) (comps : List (List Char))
    (hcomps : ∀ cp ∈ comps, '/' ∉ cp) :
    ∃ j rest, normSegs isl comps = List.replicate j ddC ++ rest
      ∧ ∀ r ∈ rest, goodSeg r := by
  have h := foldl_normStep_structure isl comps hcomps 0 [] (by simp)
  simpa [normSegs] using h

/-! ### `lstrip('./')` against the joined normalized components -/

theorem dropWhile_all_sat_append {α : Type} {p : α → Bool} :
    ∀ (a b : List α), (∀ c ∈ a, p c = true) →
      (a ++ b).dropWhile p = b.dropWhile p := by
  intro a
  induction a with
  | nil => intro b _; rfl
  | cons c t ih =>
    intro b h
    rw [List.cons_append, List.dropWhile_cons_of_pos (h c (List.mem_cons_self c t))]
    exact ih b (fun c' hc' => h c' (List.mem_cons_of_mem c hc'))

theorem dropWhile_append_of_ne_nil {p : Char → Bool} :
    ∀ (a b : List Char), a.dropWhile p ≠ [] →
      (a ++ b).dropWhile p = a.dropWhile p ++ b := by
  intro a
  induction a with
  | nil => intro b h; exact absurd rfl h
  | cons c t ih =>
    intro b h
    by_cases hc : p c = true
    · rw [List.dropWhile_cons_of_pos hc] at h ⊢
      rw [List.cons_append, List.dropWhile_cons_of_pos hc]
      exact ih b h
    · have hc' : p c = false := by simpa using hc
      rw [List.dropWhile_cons_of_neg (by simp [hc'])] at h ⊢
      rw [List.cons_append, List.dropWhile_cons_of_neg (by simp [hc'])]

theorem dropWhile_DS_eq_dropWhile_dot :
    ∀ (s : List Char), '/' ∉ s → s.dropWhile isDS = s.dropWhile isDotChar := by
  intro s
  induction s with
  | nil => intro _; rfl
  | cons c t ih =>
    intro h
    have hcs : ¬ c = '/' := fun e => h (e ▸ List.mem_cons_self c t)
    have ht : '/' ∉ t := fun m => h (List.mem_cons_of_mem c m)
    by_cases hc : isDotChar c = true
    · have hds : isDS c = true := by
        unfold isDS
        unfold isDotChar at hc
        simp [hc]
      rw [List.dropWhile_cons_of_pos hc, List.dropWhile_cons_of_pos hds]
      exact ih ht
    · have hc' : isDotChar c = false := by simpa using hc
      have hds : isDS c = false := by
        unfold isDS
        unfold isDotChar at hc'
        simp [hc', hcs]
      rw [List.dropWhile_cons_of_neg (by simp only [Bool.not_eq_true]; exact hds),
        List.dropWhile_cons_of_neg (by simp only [Bool.not_eq_true]; exact hc')]

theorem allDots_imp_isDS {l : List Char} (h : allDots l = true) :
    ∀ c ∈ l, isDS c = true := by
  intro c hc
  have := (List.all_eq_true.mp h) c hc
  unfold isDS
  unfold isDotChar at this
  simp [this]

theorem dropWhile_DS_join :
    ∀ (segs : List (List Char)), (∀ r ∈ segs, r ≠ [] ∧ '/' ∉ r) →
      (segs.dropWhile allDots = [] ∧ (joinC '/' segs).dropWhile isDS = []) ∨
      (∃ h1 t, segs.dropWhile allDots = h1 :: t ∧ ¬ allDots h1 = true ∧
        (joinC '/' segs).dropWhile isDS = joinC '/' (h1.dropWhile isDotChar :: t)) := by
  intro segs
  induction segs with
  | nil => intro _; left; exact ⟨rfl, rfl⟩
  | cons s t ih =>
    intro h
    have hs := h s (List.mem_cons_self s t)
    by_cases hall : allDots s = true
    · have hX : (joinC '/' (s :: t)).dropWhile isDS = (joinC '/' t).dropWhile isDS := by
        cases t with
        | nil =>
          show s.dropWhile isDS = ([] : List Char).dropWhile isDS
          rw [List.dropWhile_eq_nil_iff.mpr]
          · rfl
          · intro c hc
            exact allDots_imp_isDS hall c hc
        | cons q t2 =>
          show (s ++ '/' :: joinC '/' (q :: t2)).dropWhile isDS = _
          rw [dropWhile_all_sat_append s _ (allDots_imp_isDS hall),
            List.dropWhile_cons_of_pos (by unfold isDS; simp)]
      have hdw : (s :: t).dropWhile allDots = t.dropWhile allDots :=
        List.dropWhile_cons_of_pos hall
      rcases ih (fun r hr => h r (List.mem_cons_of_mem s hr)) with ⟨h1, h2⟩ | ⟨h1, t1, e1, e2, e3⟩
      · left
        exact ⟨hdw.trans h1, hX.trans h2⟩
      · right
        exact ⟨h1, t1, hdw.trans e1, e2, hX.trans e3⟩
    · right
      have hd_ne : s.dropWhile isDotChar ≠ [] := by
        intro e
        exact hall (List.all_eq_true.mpr (List.dropWhile_eq_nil_iff.mp e))
      have hds : s.dropWhile isDS = s.dropWhile isDotChar :=
        dropWhile_DS_eq_dropWhile_dot s hs.2
      refine ⟨s, t, List.dropWhile_cons_of_neg (by simpa using hall), hall, ?_⟩
      cases t with
      | nil =>
        show s.dropWhile isDS = joinC '/' [s.dropWhile isDotChar]
        rw [hds]
        rfl
      | cons q t2 =>
        show (s ++ '/' :: joinC '/' (q :: t2)).dropWhile isDS
          = s.dropWhile isDotChar ++ '/' :: joinC '/' (q :: t2)
        rw [dropWhile_append_of_ne_nil s _ (hds ▸ hd_ne), hds]

/-! ### Assembly: the stripped normalized key is traversal-free -/

theorem head?_append_of_ne_nil {α : Type} (a b : List α) (h : a ≠ []) :
    (a ++ b).head? = a.head? := by
  cases a with
  | nil => exact absurd rfl h
  | cons x t => rfl

theorem joinC_cons_head? (h1 : List Char) (t : List (List Char)) (hne : h1 ≠ []) :
    (joinC '/' (h1 :: t)).head? = h1.head? := by
  cases t with
  | nil => rfl
  | cons q t2 => exact head?_append_of_ne_nil h1 _ hne

theorem joinC_cons_ne_nil (h1 : List Char) (t : List (List Char)) (hne : h1 ≠ []) :
    joinC '/' (h1 :: t) ≠ [] := by
  cases t with
  | nil => exact hne
  | cons q t2 =>
    intro e
    exact hne (List.append_eq_nil.mp e).1

theorem splitC_joinC (sep : Char) :
    ∀ (parts : List (List Char)), parts ≠ [] → (∀ p ∈ parts, sep ∉ p) →
      pySplitC sep (joinC sep parts) = parts := by
  intro parts
  induction parts with
  | nil => intro h _; exact absurd rfl h
  | cons p t ih =>
    intro _ hmem
    cases t with
    | nil => exact splitC_no_sep (hmem p (List.mem_cons_self p []))
    | cons q t2 =>
      show pySplitC sep (p ++ sep :: joinC sep (q :: t2)) = p :: q :: t2
      rw [splitC_append _ (hmem p (List.mem_cons_self p (q :: t2)))]
      rw [ih (List.cons_ne_nil q t2) (fun r hr => hmem r (List.mem_cons_of_mem p hr))]

theorem head?_dropWhile_false {α : Type} {p : α → Bool} :
    ∀ (l : List α) (c : α), (l.dropWhile p).head? = some c → p c = false := by
  intro l
  induction l with
  | nil => intro c h; cases h
  | cons x t ih =>
    intro c h
    by_cases hx : p x = true
    · rw [List.dropWhile_cons_of_pos hx] at h
      exact ih c h
    · have hx' : p x = false := by simpa using hx
      rw [List.dropWhile_cons_of_neg (by simp [hx'])] at h
      injection h with h
      rw [← h]
      exact hx'

theorem mem_of_head?_eq_some {α : Type} {l : List α} {c : α} (h : l.head? = some c) :
    c ∈ l := by
  cases l with
  | nil => cases h
  | cons x t =>
    injection h with h
    simp [h]

theorem dropDotSlash_pyNormpath (key : String) :
    (dropDotSlash (pyNormpath key)).data = [] ∨
    ((dropDotSlash (pyNormpath key)).data ≠ [] ∧
     (∀ c, (dropDotSlash (pyNormpath key)).data.head? = some c → isDS c = false) ∧
     ∀ seg ∈ pySplitC '/' (dropDotSlash (pyNormpath key)).data, seg ≠ ddC ∧ seg ≠ []) := by
  by_cases hk : key.data = []
  · left
    simp only [pyNormpath, if_pos hk]
    decide
  · by_cases hc : normpathCore key.data = []
    · left
      simp only [pyNormpath, if_neg hk, if_pos hc]
      decide
    · have hdat : (dropDotSlash (pyNormpath key)).data
          = (normpathCore key.data).dropWhile isDS := by
        simp only [pyNormpath, if_neg hk, if_neg hc, dropDotSlash]
      obtain ⟨j, rest, hsegs, hgood⟩ :=
        normSegs_structure (decide (islOf key.data ≠ 0)) (pySplitC '/' key.data)
          (fun cp hcp => splitC_sep_not_mem key.data cp hcp)
      have hrep : ∀ c ∈ List.replicate (islOf key.data) '/', isDS c = true := by
        intro c hcm
        have : c = '/' := List.eq_of_mem_replicate hcm
        subst this
        decide
      have hdat2 : (dropDotSlash (pyNormpath key)).data
          = (joinC '/' (List.replicate j ddC ++ rest)).dropWhile isDS := by
        rw [hdat]
        unfold normpathCore
        rw [dropWhile_all_sat_append _ _ hrep, hsegs]
      have hprops : ∀ r ∈ List.replicate j ddC ++ rest, r ≠ [] ∧ '/' ∉ r := by
        intro r hr
        rcases List.mem_append.mp hr with hr | hr
        · have : r = ddC := List.eq_of_mem_replicate hr
          subst this
          exact ⟨by decide, by decide⟩
        · exact ⟨(hgood r hr).2.1, (hgood r hr).2.2.2⟩
      rcases dropWhile_DS_join _ hprops with ⟨_, h2⟩ | ⟨h1, t, e1, e2, e3⟩
      · left
        rw [hdat2, h2]
      · right
        have hrepDots : ∀ r ∈ List.replicate j ddC, allDots r = true := by
          intro r hr
          have : r = ddC := List.eq_of_mem_replicate hr
          subst this
          decide
        have e1' : rest.dropWhile allDots = h1 :: t := by
          rw [← e1]
          exact (dropWhile_all_sat_append _ rest hrepDots).symm
        have hsub : ∀ r ∈ h1 :: t, r ∈ rest := by
          intro r hr
          rw [← e1'] at hr
          exact (List.dropWhile_suffix allDots).subset hr
        have hh1good : goodSeg h1 := hgood h1 (hsub h1 (List.mem_cons_self h1 t))
        have htgood : ∀ r ∈ t, goodSeg r :=
          fun r hr => hgood r (hsub r (List.mem_cons_of_mem h1 hr))
        have hh1ne : h1.dropWhile isDotChar ≠ [] := by
          intro e
          exact e2 (List.all_eq_true.mpr (List.dropWhile_eq_nil_iff.mp e))
        have hh1sub : ∀ c ∈ h1.dropWhile isDotChar, c ∈ h1 :=
          fun c hcm => (List.dropWhile_suffix isDotChar).subset hcm
        have hdat3 : (dropDotSlash (pyNormpath key)).data
            = joinC '/' (h1.dropWhile isDotChar :: t) := by
          rw [hdat2, e3]
        have hsplit : pySplitC '/' (joinC '/' (h1.dropWhile isDotChar :: t))
            = h1.dropWhile isDotChar :: t := by
          apply splitC_joinC
          · exact List.cons_ne_nil _ t
          · intro r hr
            rcases List.mem_cons.mp hr with hr | hr
            · subst hr
              intro hm
              exact hh1good.2.2.2 (hh1sub '/' hm)
            · exact (htgood r hr).2.2.2
        refine ⟨?_, ?_, ?_⟩
        · rw [hdat3]
          exact joinC_cons_ne_nil _ t hh1ne
        · intro c hch
          rw [hdat3, joinC_cons_head? _ t hh1ne] at hch
          have hdot : isDotChar c = false := head?_dropWhile_false h1 c hch
          have hcm : c ∈ h1 := hh1sub c (mem_of_head?_eq_some hch)
          have hslash : ¬ c = '/' := fun e => hh1good.2.2.2 (e ▸ hcm)
          unfold isDS
          unfold isDotChar at hdot
          simp [hdot, hslash]
        · intro seg hseg
          rw [hdat3, hsplit] at hseg
          rcases List.mem_cons.mp hseg with hseg | hseg
          · subst hseg
            constructor
            · intro e
              have : (h1.dropWhile isDotChar).head? = some '.' := by
                rw [e]
                rfl
              have := head?_dropWhile_false h1 '.' this
              exact absurd this (by decide)
            · exact hh1ne
          · exact ⟨(htgood seg hseg).1, (htgood seg hseg).2.1⟩

/-! ### Helpers for the single-folder path and remaining claims -/

theorem mem_flatCat {c : Char} :
    ∀ {ls : List (List Char)}, c ∈ flatCat ls → ∃ l ∈ ls, c ∈ l := by
  intro ls
  induction ls with
  | nil => intro h; cases h
  | cons x t ih =>
    intro h
    rcases List.mem_append.mp h with h | h
    · exact ⟨x, List.mem_cons_self x t, h⟩
    · obtain ⟨l, hl, hc⟩ := ih h
      exact ⟨l, List.mem_cons_of_mem x hl, hc⟩

theorem pyReplaceSlash_no_slash (delim key : String) (h : '/' ∉ delim.data) :
    '/' ∉ (pyReplaceSlash delim key).data := by
  intro hm
  obtain ⟨piece, hp, hc⟩ := mem_flatCat hm
  obtain ⟨ch, _, hch⟩ := List.mem_map.mp hp
  by_cases hslash : ch = '/'
  · rw [if_pos hslash] at hch
    exact h (hch ▸ hc)
  · rw [if_neg hslash] at hch
    rw [← hch] at hc
    have : '/' = ch := by simpa using hc
    exact hslash this.symm

theorem pyReplaceSlash_ne_nil (delim key : String) (hd : delim.data ≠ [])
    (hk : key.data ≠ []) : (pyReplaceSlash delim key).data ≠ [] := by
  unfold pyReplaceSlash
  obtain ⟨c, t, hct⟩ := List.exists_cons_of_ne_nil hk
  rw [hct]
  show flatCat ((if c = '/' then delim.data else [c]) :: _) ≠ []
  show (if c = '/' then delim.data else [c]) ++ _ ≠ []
  intro e
  have := (List.append_eq_nil.mp e).1
  by_cases hc : c = '/'
  · rw [if_pos hc] at this
    exact hd this
  · rw [if_neg hc] at this
    cases this

theorem map_eq_self_of_forall {α : Type} (l : List α) (f : α → α)
    (h : ∀ x ∈ l, f x = x) : l.map f = l := by
  induction l with
  | nil => rfl
  | cons x t ih =>
    rw [List.map_cons, h x (List.mem_cons_self x t),
      ih (fun y hy => h y (List.mem_cons_of_mem x hy))]

theorem filterFold_no_pipe (reg : Registry) :
    ∀ (ks : List String) (st : List (String × Value)),
      (∀ k ∈ ks, k.data.contains '|' = false) → filterFold reg ks st = some st := by
  intro ks
  induction ks with
  | nil => intro st _; rfl
  | cons k t ih =>
    intro st h
    have hk : k.data.contains '|' = false := h k (List.mem_cons_self k t)
    simp only [filterFold, hk]
    simp only [Bool.false_eq_true, if_false]
    exact ih st (fun k' hk' => h k' (List.mem_cons_of_mem k hk'))

theorem applyFilters_none_map (m : List (String × Value))
    (hnd : (m.map Prod.fst).Nodup) :
    ∃ m', applyFilters regNone (.map m) = some (.map m') ∧ m'.Perm m := by
  obtain ⟨st', h1, h2⟩ :=
    filterFold_none_perm (m.map (fun p => p.1)) m hnd (fun k hk => hk)
  refine ⟨st', ?_, h2⟩
  show (filterFold regNone (m.map (fun p => p.1)) m).map Doc.map = _
  show (filterFold (fun _ => none) (m.map (fun p => p.1)) m).map Doc.map = _
  rw [h1]
  rfl

theorem filterFold_singleton (reg : Registry) (k : String) (v : Value)
    (hk : k.data.contains '|' = true) :
    filterFold reg [k] [(k, v)]
      = some [applyTags reg (pipeSplit k).tail ((pipeSplit k).headD "") v] := by
  have hget : dictGet [(k, v)] k = some v := by
    rw [dictGet_cons]
    simp
  have hpop : dictPopRest [(k, v)] k = [] := by
    unfold dictPopRest
    simp
  simp only [filterFold, hk, if_true, hget, hpop]
  simp [dictSet, filterFold]

/-! ### Claim theorems -/

/-- C2: `get` yields the absent result (never a raised error) when the
derived path is missing, unreadable, or not valid UTF-8, while a
readable file whose text is not valid yaml makes `get` raise a decode
error; the two outcomes are distinguishable for every key. -/
theorem C2_absent_vs_decode_error (fs : FS) (ktp : String → String) (reg : Registry)
    (key : String) :
    (fs (ktp key) = none → pageGet reg fs ktp key = .ok none) ∧
    (fs (ktp key) = some .badUtf8 → pageGet reg fs ktp key = .ok none) ∧
    (fs (ktp key) = some .unreadable → pageGet reg fs ktp key = .ok none) ∧
    (fs (ktp key) = some (.file .invalid) → pageGet reg fs ktp key = .error .parse) ∧
    (Except.ok none : Except GetErr (Option Doc)) ≠ .error .parse := by
  refine ⟨?_, ?_, ?_, ?_, fun h => Except.noConfusion h⟩
  all_goals intro h
  all_goals simp [pageGet, backendRead, h]

/-- C3: `MultiFolderBackend.key_to_path` keeps every key under the root
(modulo the documented empty-key edge case): the key is normalized as a
filesystem path, leading `..` traversal and leading separators are
removed before joining, and in particular the root `root/dir` maps
`../../../a/b/c` to `root/dir/a/b/c.yaml` and `""` to `root/dir.yaml`;
in general the derived path is either the root file itself or
`root ++ "/" ++ q ++ ext` with `q` nonempty, starting with neither `.`
nor `/`, and containing no empty or `..` segment. -/
theorem C3_multi_key_to_path :
    keyToPathMulti "root/dir" (mkFileExt "yaml") "../../../a/b/c" = "root/dir/a/b/c.yaml" ∧
    keyToPathMulti "root/dir" (mkFileExt "yaml") "" = "root/dir.yaml" ∧
    ∀ (root ext key : String), root.data ≠ [] → root.data.getLast? ≠ some '/' →
      keyToPathMulti root ext key = root ++ ext ∨
      ∃ q : String, keyToPathMulti root ext key = root ++ "/" ++ q ++ ext ∧
        q.data ≠ [] ∧ (∀ c, q.data.head? = some c → c ≠ '.' ∧ c ≠ '/') ∧
        ∀ seg ∈ pySplitC '/' q.data, seg ≠ ddC ∧ seg ≠ [] := by
  refine ⟨by decide, by decide, ?_⟩
  intro root ext key hroot hlast
  rcases dropDotSlash_pyNormpath key with h | ⟨hne, hhead, hsegs⟩
  · left
    simp only [keyToPathMulti]
    rw [if_pos h]
  · right
    refine ⟨dropDotSlash (pyNormpath key), ?_, hne, ?_, hsegs⟩
    · simp only [keyToPathMulti]
      rw [if_neg hne]
      unfold posixJoin
      have hb : ¬ (dropDotSlash (pyNormpath key)).data.head? = some '/' := by
        intro e
        exact absurd (hhead '/' e) (by decide)
      have ha : ¬ (root.data = [] ∨ root.data.getLast? = some '/') := by
        intro hor
        rcases hor with h | h
        · exact hroot h
        · exact hlast h
      rw [if_neg hb, if_neg ha]
    · intro c hc
      have hds := hhead c hc
      constructor
      · intro e
        subst e
        exact absurd hds (by decide)
      · intro e
        subst e
        exact absurd hds (by decide)

/-- C4: `SingleFolderBackend.key_to_path` replaces every `/` in the key
by the configured delimiter (default `^`), joins with the root and
appends the extension; the empty key maps to the root plus extension
with no joining separator: `key_to_path("a/b/c")` with root `root/dir`
is `root/dir/a^b^c.yaml` and `key_to_path("")` is `root/dir.yaml`. -/
theorem C4_single_key_to_path :
    keyToPathSingle "root/dir" (mkFileExt "yaml") "^" "a/b/c" = "root/dir/a^b^c.yaml" ∧
    (∀ root ext delim : String, keyToPathSingle root ext delim "" = root ++ ext) ∧
    keyToPathSingle "root/dir" (mkFileExt "yaml") "^" "" = "root/dir.yaml" ∧
    ∀ root ext delim key : String,
      root.data ≠ [] → root.data.getLast? ≠ some '/' →
      delim.data ≠ [] → '/' ∉ delim.data → key.data ≠ [] →
      keyToPathSingle root ext delim key
        = root ++ "/" ++ pyReplaceSlash delim key ++ ext := by
  refine ⟨by decide, ?_, by decide, ?_⟩
  · intro root ext delim
    rfl
  · intro root ext delim key hroot hlast hd hslash hk
    have hne := pyReplaceSlash_ne_nil delim key hd hk
    have hnoslash := pyReplaceSlash_no_slash delim key hslash
    simp only [keyToPathSingle]
    rw [if_neg hne]
    unfold posixJoin
    have hb : ¬ (pyReplaceSlash delim key).data.head? = some '/' := by
      intro e
      exact hnoslash (mem_of_head?_eq_some e)
    have ha : ¬ (root.data = [] ∨ root.data.getLast? = some '/') := by
      intro hor
      rcases hor with h | h
      · exact hroot h
      · exact hlast h
    rw [if_neg hb, if_neg ha]

/-- C9: when the stored file for a key exists but is empty, `get` yields
the absent result (`if text:` treats the empty string like a missing
file), not an empty document and not a decode error, while `exists` is
still true. -/
theorem C9_empty_file_absent (fs : FS) (ktp : String → String) (reg : Registry)
    (key : String) (h : fs (ktp key) = some (.file .empty)) :
    pageExists fs ktp key = true ∧ pageGet reg fs ktp key = .ok none := by
  constructor
  · simp [pageExists, h]
  · simp [pageGet, backendRead, h]

/-- C5: the encoder emits an unordered mapping's fields in strictly
ascending field-name order, and an ordered pair sequence's fields in
exactly the input order (documents have unique field names). -/
theorem C5_field_order :
    (∀ l : List (String × Value), (l.map Prod.fst).Nodup →
      (fieldNames (dumps (.dict l))).Pairwise (fun a b => a < b)) ∧
    (∀ l : List (String × Value), (l.map Prod.fst).Nodup →
      fieldNames (dumps (.pairs l)) = l.map Prod.fst) := by
  constructor
  · intro l hnd
    have hnd' : ((pySortItems l).map Prod.fst).Nodup :=
      (((pySortItems_perm l).map Prod.fst).nodup_iff).mpr hnd
    have h1 : fieldNames (dumps (.dict l)) = (pySortItems l).map Prod.fst := by
      simp only [dumps, fieldNames, buildOD_nodup _ hnd', List.map_map]
      rfl
    rw [h1]
    exact sorted_keys_strict l hnd
  · intro l hnd
    simp only [dumps, fieldNames, buildOD_nodup _ hnd, List.map_map]
    rfl

/-- C6: in the encoder, a pair-shaped string field value containing a
newline is stored literal-block-styled after carriage-return stripping,
tab-to-four-spaces expansion and per-line trailing-whitespace trimming
(that is exactly `normalizeML`); a string value without a newline is
stored unquoted and untouched; a non-string value passes through; and
`normalizeML` performs the three advertised transformations. -/
theorem C6_value_styling :
    (∀ (l : List (String × Value)) (k : String) (v : Value),
      (l.map Prod.fst).Nodup → (k, v) ∈ l →
      ∃ d, dumps (.pairs l) = .doc d ∧
        (∀ s, v = .str s → s.data.contains '\n' = true → (k, .lit (normalizeML s)) ∈ d) ∧
        (∀ s, v = .str s → s.data.contains '\n' = false → (k, .unq s) ∈ d) ∧
        (∀ n, v = .int n → (k, .raw n) ∈ d)) ∧
    normalizeML "a \r\n\tb\t" = "a\n    b" := by
  refine ⟨?_, by decide⟩
  intro l k v hnd hmem
  refine ⟨l.map (fun p => (p.1, styleValue p.2)),
    by simp [dumps, buildOD_nodup _ hnd], ?_, ?_, ?_⟩
  · intro s hv hnl
    subst hv
    refine List.mem_map.mpr ⟨(k, .str s), hmem, ?_⟩
    have hm : '\n' ∈ s.data := by simpa using hnl
    simp [styleValue, hm]
  · intro s hv hnl
    subst hv
    refine List.mem_map.mpr ⟨(k, .str s), hmem, ?_⟩
    have hm : '\n' ∉ s.data := by simpa using hnl
    simp [styleValue, hm]
  · intro n hv
    subst hv
    exact List.mem_map.mpr ⟨(k, .int n), hmem, rfl⟩

/-- C7: the filter pipeline folds over the pipe-separated tags of a
field name left to right — a registered tag transforms the running value
and disappears from the name, an unregistered tag is re-appended to the
name and leaves the value unchanged — fields without `|` pass through
untouched; with registry `{"md": f}`, `{"body|md": "x"}` becomes
`{"body": f("x")}` and `{"body|unknown": "x"}` is unchanged. -/
theorem C7_filter_pipeline :
    (∀ (reg : Registry) (k : String) (v : Value), k.data.contains '|' = true →
      applyFilters reg (.map [(k, v)])
        = some (.map [applyTags reg (pipeSplit k).tail ((pipeSplit k).headD "") v])) ∧
    (∀ (reg : Registry) (tag : String) (f : Value → Value) (base : String) (v : Value),
      reg tag = some f → applyTags reg [tag] base v = (base, f v)) ∧
    (∀ (reg : Registry) (tag : String) (base : String) (v : Value),
      reg tag = none → applyTags reg [tag] base v = (base ++ "|" ++ tag, v)) ∧
    (∀ (reg : Registry) (d : List (String × Value)),
      (∀ p ∈ d, p.1.data.contains '|' = false) →
      applyFilters reg (.map d) = some (.map d)) ∧
    applyFilters regMd (.map [("body|md", .str "x")])
      = some (.map [("body", mdRender (.str "x"))]) ∧
    applyFilters regMd (.map [("body|unknown", .str "x")])
      = some (.map [("body|unknown", .str "x")]) := by
  refine ⟨?_, ?_, ?_, ?_, by decide, by decide⟩
  · intro reg k v hk
    show (filterFold reg [k] [(k, v)]).map Doc.map = _
    rw [filterFold_singleton reg k v hk]
    rfl
  · intro reg tag f base v h
    simp [applyTags, h]
  · intro reg tag base v h
    simp [applyTags, h]
  · intro reg d h
    show (filterFold reg (d.map (fun p => p.1)) d).map Doc.map = _
    rw [filterFold_no_pipe reg _ d ?_]
    · rfl
    · intro k hk
      obtain ⟨p, hp, hpk⟩ := List.mem_map.mp hk
      exact hpk ▸ h p hp

/-- C8: a document with unique field names and no multi-line string
values, supplied as an ordered pair sequence, decodes from its encoding
to exactly itself, field order preserved. -/
theorem C8_roundtrip_ordered (l : List (String × Value))
    (hnd : (l.map Prod.fst).Nodup)
    (hnl : ∀ p ∈ l, ∀ s, p.2 = Value.str s → s.data.contains '\n' = false) :
    decodeDumped (dumps (.pairs l)) = .map l := by
  rw [decode_dumps_pairs l hnd]
  congr 1
  apply map_eq_self_of_forall
  intro p hp
  have hval : normValue p.2 = p.2 := by
    cases hv : p.2 with
    | str s =>
      have hc := hnl p hp s hv
      have hm : '\n' ∉ s.data := by simpa using hc
      simp [normValue, styleValue, hm, stripStyle]
    | int n => rfl
  rw [hval]

theorem pageExists_after_put (fs : FS) (ktp : String → String) (key : String)
    (d : PyObj) : pageExists (pagePut fs ktp key d) ktp key = true := by
  simp [pageExists, pagePut]

theorem pageGet_after_put (fs : FS) (ktp : String → String) (key : String) (d : PyObj) :
    pageGet regNone (pagePut fs ktp key d) ktp key
      = match applyFilters regNone (decodeDumped (dumps d)) with
        | none => .error .runtime
        | some page => .ok (some page) := by
  have hbr : backendRead (pagePut fs ktp key d) (ktp key) = some (.ydoc (dumps d)) := by
    simp [backendRead, pagePut]
  simp only [pageGet]
  rw [hbr]

/-- C1 counterexample: the claim quantifies over list documents too, but
after `put` of the list `[1, 2, 3]` on a fresh filter-less store, `get`
raises a `TypeError` (the `apply_filters` loop evaluates `"|" not in k`
on the integer items) instead of returning a document. -/
theorem C1_list_document_raises :
    pageGet regNone (pagePut fsEmpty ktpContent "k" (.plainList [.int 1, .int 2, .int 3]))
      ktpContent "k" = .error .runtime := by
  rfl

/-- C1 (amended): for every key and every document with unique field
names given as ordered pairs or as a mapping — list documents excluded —
after `put` on a store with no configured filters, `exists` is true and
`get` returns a mapping with the same field-name multiset whose value at
every name equals the original value normalized: multi-line strings come
back with carriage returns removed, tabs expanded to four spaces and
trailing whitespace trimmed per line (`normValue`), all other values
unchanged. -/
theorem C1_put_get_roundtrip (fs : FS) (ktp : String → String) (key : String)
    (l : List (String × Value)) (hnd : (l.map Prod.fst).Nodup) :
    (pageExists (pagePut fs ktp key (.pairs l)) ktp key = true ∧
      ∃ l', pageGet regNone (pagePut fs ktp key (.pairs l)) ktp key = .ok (some (.map l')) ∧
        (l'.map Prod.fst).Perm (l.map Prod.fst) ∧
        ∀ n, dictGet l' n = (dictGet l n).map normValue) ∧
    (pageExists (pagePut fs ktp key (.dict l)) ktp key = true ∧
      ∃ l', pageGet regNone (pagePut fs ktp key (.dict l)) ktp key = .ok (some (.map l')) ∧
        (l'.map Prod.fst).Perm (l.map Prod.fst) ∧
        ∀ n, dictGet l' n = (dictGet l n).map normValue) := by
  constructor
  · refine ⟨pageExists_after_put fs ktp key _, ?_⟩
    have hkeys : ((l.map (fun p => (p.1, normValue p.2))).map Prod.fst) = l.map Prod.fst := by
      rw [List.map_map]
      rfl
    have hndm : ((l.map (fun p => (p.1, normValue p.2))).map Prod.fst).Nodup := by
      rw [hkeys]
      exact hnd
    obtain ⟨m', h1, h2⟩ := applyFilters_none_map _ hndm
    refine ⟨m', ?_, ?_, ?_⟩
    · rw [pageGet_after_put, decode_dumps_pairs l hnd, h1]
    · have := h2.map Prod.fst
      rw [hkeys] at this
      exact this
    · intro n
      have hnd' : (m'.map Prod.fst).Nodup := ((h2.map Prod.fst).nodup_iff).mpr hndm
      rw [dictGet_perm h2 hnd' n, dictGet_map_snd]
  · refine ⟨pageExists_after_put fs ktp key _, ?_⟩
    have hnds : ((pySortItems l).map Prod.fst).Nodup :=
      (((pySortItems_perm l).map Prod.fst).nodup_iff).mpr hnd
    have hkeys : (((pySortItems l).map (fun p => (p.1, normValue p.2))).map Prod.fst)
        = (pySortItems l).map Prod.fst := by
      rw [List.map_map]
      rfl
    have hndm : (((pySortItems l).map (fun p => (p.1, normValue p.2))).map Prod.fst).Nodup := by
      rw [hkeys]
      exact hnds
    obtain ⟨m', h1, h2⟩ := applyFilters_none_map _ hndm
    refine ⟨m', ?_, ?_, ?_⟩
    · rw [pageGet_after_put, decode_dumps_dict l hnd, h1]
    · have hk1 := h2.map Prod.fst
      rw [hkeys] at hk1
      exact hk1.trans ((pySortItems_perm l).map Prod.fst)
    · intro n
      have hnd' : (m'.map Prod.fst).Nodup := ((h2.map Prod.fst).nodup_iff).mpr hndm
      rw [dictGet_perm h2 hnd' n, dictGet_map_snd,
        dictGet_perm (pySortItems_perm l) hnds n]

/-- Witness for C1: the amended round trip evaluated on the doctest
page under the default store configuration. -/
theorem C1_put_get_roundtrip_witness :
    pageExists (pagePut fsEmpty ktpContent "my/url"
      (.pairs [("title", .str "foo"), ("body|md", .str "- foo\n- bar")])) ktpContent "my/url"
      = true :=
  (C1_put_get_roundtrip fsEmpty ktpContent "my/url"
    [("title", .str "foo"), ("body|md", .str "- foo\n- bar")] (by decide)).1.1

/-- Witness for C2: a malformed stored file makes `get` raise the decode
error on a concrete store. -/
theorem C2_absent_vs_decode_error_witness :
    pageGet regNone fsInvalid ktpContent "bad" = .error .parse :=
  (C2_absent_vs_decode_error fsInvalid ktpContent regNone "bad").2.2.2.1 (by rfl)

/-- Witness for C3: the general containment conclusion evaluated at a
concrete root and key. -/
theorem C3_multi_key_to_path_witness :
    keyToPathMulti "root/dir" ".yaml" "a/b/c" = "root/dir" ++ ".yaml" ∨
    ∃ q : String, keyToPathMulti "root/dir" ".yaml" "a/b/c"
        = "root/dir" ++ "/" ++ q ++ ".yaml" ∧
      q.data ≠ [] ∧ (∀ c, q.data.head? = some c → c ≠ '.' ∧ c ≠ '/') ∧
      ∀ seg ∈ pySplitC '/' q.data, seg ≠ ddC ∧ seg ≠ [] :=
  C3_multi_key_to_path.2.2 "root/dir" ".yaml" "a/b/c" (by decide) (by decide)

/-- Witness for C4: the general join form evaluated at the default
configuration. -/
theorem C4_single_key_to_path_witness :
    keyToPathSingle "root/dir" ".yaml" "^" "a/b/c"
      = "root/dir" ++ "/" ++ pyReplaceSlash "^" "a/b/c" ++ ".yaml" :=
  C4_single_key_to_path.2.2.2 "root/dir" ".yaml" "^" "a/b/c"
    (by decide) (by decide) (by decide) (by decide) (by decide)

/-- Witness for C5: both order conclusions evaluated on the doctest
mapping `{'foo': 1, 'bar': 2}`. -/
theorem C5_field_order_witness :
    (fieldNames (dumps (.dict [("foo", .int 1), ("bar", .int 2)]))).Pairwise
      (fun a b => a < b) ∧
    fieldNames (dumps (.pairs [("foo", .int 1), ("bar", .int 2)])) = ["foo", "bar"] :=
  ⟨C5_field_order.1 [("foo", .int 1), ("bar", .int 2)] (by decide),
   C5_field_order.2 [("foo", .int 1), ("bar", .int 2)] (by decide)⟩

/-- Witness for C6: the styling conclusion evaluated on a two-field page
with a multi-line body. -/
theorem C6_value_styling_witness :
    ∃ d, dumps (.pairs [("title", .str "foo"), ("body", .str "a\nb")]) = .doc d ∧
      (∀ s, Value.str "a\nb" = Value.str s → s.data.contains '\n' = true →
        (("body" : String), DVal.lit (normalizeML s)) ∈ d) ∧
      (∀ s, Value.str "a\nb" = Value.str s → s.data.contains '\n' = false →
        (("body" : String), DVal.unq s) ∈ d) ∧
      (∀ n, Value.str "a\nb" = Value.int n → (("body" : String), DVal.raw n) ∈ d) :=
  C6_value_styling.1 [("title", .str "foo"), ("body", .str "a\nb")] "body"
    (.str "a\nb") (by decide) (by decide)

/-- Witness for C7: the per-field fold conclusion evaluated on the
doctest field `body|md`. -/
theorem C7_filter_pipeline_witness :
    applyFilters regMd (.map [("body|md", .str "x")])
      = some (.map [applyTags regMd (pipeSplit "body|md").tail
          ((pipeSplit "body|md").headD "") (.str "x")]) :=
  C7_filter_pipeline.1 regMd "body|md" (.str "x") (by decide)

/-- Witness for C8: the round trip evaluated on a concrete two-field
ordered document. -/
theorem C8_roundtrip_ordered_witness :
    decodeDumped (dumps (.pairs [("a", .str "x"), ("b", .int 2)]))
      = .map [("a", .str "x"), ("b", .int 2)] :=
  C8_roundtrip_ordered [("a", .str "x"), ("b", .int 2)] (by decide)
    (by
      intro p hp s hv
      rcases List.mem_cons.mp hp with h | h
      · subst h
        injection hv with hs
        subst hs
        decide
      · have h' : p = ("b", .int 2) := by simpa using h
        subst h'
        cases hv)

/-- Witness for C9: a concrete store holding one empty file. -/
theorem C9_empty_file_absent_witness :
    pageExists fsEmptyFile ktpContent "k" = true ∧
    pageGet regNone fsEmptyFile ktpContent "k" = .ok none :=
  C9_empty_file_absent fsEmptyFile ktpContent regNone "k" (by rfl)

/-! ### Leading dots of the first segment are invisible to the derived path -/

theorem splitC_prepend {sep : Char} :
    ∀ (a l : List Char), sep ∉ a →
      pySplitC sep (a ++ l)
        = (a ++ (pySplitC sep l).headD []) :: (pySplitC sep l).tail := by
  intro a
  induction a with
  | nil =>
    intro l _
    cases hq : pySplitC sep l with
    | nil => exact absurd hq (pySplitC_ne_nil sep l)
    | cons x b => simp [hq]
  | cons ch a' ih =>
    intro l h
    have hch : ¬ ch = sep := fun e => h (e ▸ List.mem_cons_self ch a')
    have ha' : sep ∉ a' := fun m => h (List.mem_cons_of_mem ch m)
    have hih := ih l ha'
    cases hq : pySplitC sep l with
    | nil => exact absurd hq (pySplitC_ne_nil sep l)
    | cons x b =>
      rw [hq] at hih
      simp only [List.headD_cons, List.tail_cons] at hih
      simp only [List.headD_cons, List.tail_cons]
      show pySplitC sep (ch :: (a' ++ l)) = ((ch :: a') ++ x) :: b
      rw [pySplitC_cons_eq sep ch (a' ++ l) hih, if_neg hch]
      simp [List.cons_append]

theorem normStep_skip (isl : Bool) (acc : List (List Char)) (comp : List Char)
    (h : comp = [] ∨ comp = dotC) : normStep isl acc comp = acc := by
  unfold normStep
  rw [if_pos h]

theorem normStep_push (isl : Bool) (acc : List (List Char)) (comp : List Char)
    (h1 : ¬ (comp = [] ∨ comp = dotC)) (h2 : comp ≠ ddC) :
    normStep isl acc comp = acc ++ [comp] := by
  unfold normStep
  rw [if_neg h1, if_pos (Or.inl h2)]

theorem normStep_cons_ddC (f : List Char) (X : List (List Char)) :
    normStep false (f :: X) ddC
      = if (f :: X).getLast? = some ddC then (f :: X) ++ [ddC] else (f :: X).dropLast := by
  unfold normStep
  rw [if_neg (by decide)]
  by_cases hl : (f :: X).getLast? = some ddC
  · rw [if_pos (Or.inr (Or.inr ⟨List.cons_ne_nil f X, hl⟩)), if_pos hl]
  · have hcond : ¬ (ddC ≠ ddC ∨ ((false = false) ∧ f :: X = [])
        ∨ (f :: X ≠ [] ∧ (f :: X).getLast? = some ddC)) := by
      intro h
      rcases h with h | h | h
      · exact h rfl
      · exact List.cons_ne_nil f X h.2
      · exact hl h.2
    rw [if_neg hcond, if_pos (List.cons_ne_nil f X), if_neg hl]

theorem normStep_sim (f₁ f₂ : List Char) (h₁ : f₁ ≠ ddC) (h₂ : f₂ ≠ ddC)
    (X : List (List Char)) (comp : List Char) :
    (∃ Y, normStep false (f₁ :: X) comp = f₁ :: Y ∧
          normStep false (f₂ :: X) comp = f₂ :: Y) ∨
    normStep false (f₁ :: X) comp = normStep false (f₂ :: X) comp := by
  by_cases hskip : comp = [] ∨ comp = dotC
  · exact Or.inl ⟨X, normStep_skip false _ comp hskip, normStep_skip false _ comp hskip⟩
  · by_cases hdd : comp = ddC
    · subst hdd
      rw [normStep_cons_ddC f₁ X, normStep_cons_ddC f₂ X]
      cases X with
      | nil =>
        rw [if_neg (by simpa [List.getLast?_singleton] using h₁),
          if_neg (by simpa [List.getLast?_singleton] using h₂)]
        exact Or.inr rfl
      | cons x X' =>
        have hg₁ : (f₁ :: x :: X').getLast? = (x :: X').getLast? :=
          List.getLast?_cons_cons
        have hg₂ : (f₂ :: x :: X').getLast? = (x :: X').getLast? :=
          List.getLast?_cons_cons
        by_cases hl : (x :: X').getLast? = some ddC
        · rw [if_pos (hg₁.trans hl), if_pos (hg₂.trans hl)]
          exact Or.inl ⟨(x :: X') ++ [ddC], List.cons_append f₁ _ _, List.cons_append f₂ _ _⟩
        · rw [if_neg (fun e => hl (hg₁.symm.trans e)), if_neg (fun e => hl (hg₂.symm.trans e))]
          exact Or.inl ⟨(x :: X').dropLast, rfl, rfl⟩
    · rw [normStep_push false _ comp hskip hdd, normStep_push false _ comp hskip hdd]
      exact Or.inl ⟨X ++ [comp], List.cons_append f₁ _ _, List.cons_append f₂ _ _⟩

theorem foldl_normStep_sim (f₁ f₂ : List Char) (h₁ : f₁ ≠ ddC) (h₂ : f₂ ≠ ddC) :
    ∀ (comps : List (List Char)) (X : List (List Char)),
      (∃ Y, comps.foldl (normStep false) (f₁ :: X) = f₁ :: Y ∧
            comps.foldl (normStep false) (f₂ :: X) = f₂ :: Y) ∨
      comps.foldl (normStep false) (f₁ :: X) = comps.foldl (normStep false) (f₂ :: X) := by
  intro comps
  induction comps with
  | nil => intro X; exact Or.inl ⟨X, rfl, rfl⟩
  | cons cmp t ih =>
    intro X
    rw [List.foldl_cons, List.foldl_cons]
    rcases normStep_sim f₁ f₂ h₁ h₂ X cmp with ⟨Y, e1, e2⟩ | he
    · rw [e1, e2]
      exact ih Y
    · rw [he]
      exact Or.inr rfl

theorem keyToPathMulti_congr (root ext : String) {k1 k2 : String}
    (h : dropDotSlash (pyNormpath k1) = dropDotSlash (pyNormpath k2)) :
    keyToPathMulti root ext k1 = keyToPathMulti root ext k2 := by
  simp only [keyToPathMulti]
  rw [h]

theorem dropDotSlash_prepend_dots (dots rest : List Char) (c : Char)
    (hd : dots ≠ []) (hall : ∀ ch ∈ dots, ch = '.')
    (hc : rest.head? = some c) (hcd : c ≠ '.') (hcs : c ≠ '/') :
    dropDotSlash (pyNormpath ⟨dots ++ rest⟩) = dropDotSlash (pyNormpath ⟨rest⟩) := by
  obtain ⟨rest', rfl⟩ : ∃ rest', rest = c :: rest' := by
    cases rest with
    | nil => cases hc
    | cons r0 rest' =>
      have hr0 : r0 = c := by simpa using hc
      exact ⟨rest', by rw [hr0]⟩
  cases hsp' : pySplitC '/' rest' with
  | nil => exact absurd hsp' (pySplitC_ne_nil '/' rest')
  | cons a b =>
  have hsp : pySplitC '/' (c :: rest') = (c :: a) :: b := by
    rw [pySplitC_cons_eq '/' c rest' hsp', if_neg hcs]
  have hnsd : '/' ∉ dots := by
    intro hm
    have := hall '/' hm
    exact absurd this (by decide)
  have hsplit1 : pySplitC '/' (dots ++ (c :: rest')) = (dots ++ (c :: a)) :: b := by
    rw [splitC_prepend dots (c :: rest') hnsd, hsp]
    rfl
  have hf₂ne : (c :: a) ≠ [] := List.cons_ne_nil c a
  have hf₂dot : (c :: a) ≠ dotC := by
    intro e
    exact hcd (by have := congrArg List.head? e; simpa [dotC] using this)
  have hf₂dd : (c :: a) ≠ ddC := by
    intro e
    exact hcd (by have := congrArg List.head? e; simpa [ddC] using this)
  have hf₁ne : dots ++ (c :: a) ≠ [] := fun e => hd (List.append_eq_nil.mp e).1
  have hcmem : c ∈ dots ++ (c :: a) :=
    List.mem_append.mpr (Or.inr (List.mem_cons_self c a))
  have hf₁dot : dots ++ (c :: a) ≠ dotC := by
    intro e
    rw [e] at hcmem
    exact hcd (by simpa [dotC] using hcmem)
  have hf₁dd : dots ++ (c :: a) ≠ ddC := by
    intro e
    rw [e] at hcmem
    exact hcd (by simpa [ddC] using hcmem)
  obtain ⟨d0, dots', hdots⟩ := List.exists_cons_of_ne_nil hd
  have hd0 : d0 = '.' := hall d0 (by rw [hdots]; exact List.mem_cons_self d0 dots')
  have hisl1 : islOf (dots ++ (c :: rest')) = 0 := by
    have htake : ¬ (dots ++ (c :: rest')).take 1 = ['/'] := by
      rw [hdots, hd0]
      exact fun e => (show (['.'] : List Char) ≠ ['/'] by decide) e
    unfold islOf
    rw [if_neg htake]
  have hisl2 : islOf (c :: rest') = 0 := by
    have htake : ¬ (c :: rest').take 1 = ['/'] := by
      intro e
      have e' : [c] = ['/'] := e
      injection e' with e1 _
      exact hcs e1
    unfold islOf
    rw [if_neg htake]
  have hpush₁ : normStep false [] (dots ++ (c :: a)) = [dots ++ (c :: a)] := by
    rw [normStep_push false [] _ (fun h => h.elim hf₁ne hf₁dot) hf₁dd]
    rfl
  have hpush₂ : normStep false [] (c :: a) = [c :: a] := by
    rw [normStep_push false [] _ (fun h => h.elim hf₂ne hf₂dot) hf₂dd]
    rfl
  have hcore1 : normpathCore (dots ++ (c :: rest'))
      = joinC '/' (b.foldl (normStep false) [dots ++ (c :: a)]) := by
    show List.replicate (islOf (dots ++ (c :: rest'))) '/'
        ++ joinC '/' (normSegs (decide (islOf (dots ++ (c :: rest')) ≠ 0))
            (pySplitC '/' (dots ++ (c :: rest'))))
      = _
    rw [hisl1, hsplit1]
    show joinC '/' (((dots ++ (c :: a)) :: b).foldl (normStep false) []) = _
    rw [List.foldl_cons, hpush₁]
  have hcore2 : normpathCore (c :: rest')
      = joinC '/' (b.foldl (normStep false) [c :: a]) := by
    show List.replicate (islOf (c :: rest')) '/'
        ++ joinC '/' (normSegs (decide (islOf (c :: rest') ≠ 0))
            (pySplitC '/' (c :: rest')))
      = _
    rw [hisl2, hsp]
    show joinC '/' (((c :: a) :: b).foldl (normStep false) []) = _
    rw [List.foldl_cons, hpush₂]
  have hkd1 : ¬ (dots ++ (c :: rest')) = ([] : List Char) :=
    fun e => hd (List.append_eq_nil.mp e).1
  have hkd2 : ¬ (c :: rest') = ([] : List Char) := List.cons_ne_nil c rest'
  have hpn1 : pyNormpath ⟨dots ++ (c :: rest')⟩
      = if normpathCore (dots ++ (c :: rest')) = [] then "."
        else ⟨normpathCore (dots ++ (c :: rest'))⟩ := by
    show (if (dots ++ (c :: rest')) = ([] : List Char) then ("." : String)
        else if normpathCore (dots ++ (c :: rest')) = [] then "."
        else ⟨normpathCore (dots ++ (c :: rest'))⟩) = _
    rw [if_neg hkd1]
  have hpn2 : pyNormpath ⟨c :: rest'⟩
      = if normpathCore (c :: rest') = [] then "."
        else ⟨normpathCore (c :: rest')⟩ := by
    show (if (c :: rest') = ([] : List Char) then ("." : String)
        else if normpathCore (c :: rest') = [] then "."
        else ⟨normpathCore (c :: rest')⟩) = _
    rw [if_neg hkd2]
  rcases foldl_normStep_sim (dots ++ (c :: a)) (c :: a) hf₁dd hf₂dd b []
    with ⟨Y, e1, e2⟩ | he
  · have hb1 : normpathCore (dots ++ (c :: rest'))
        = joinC '/' ((dots ++ (c :: a)) :: Y) := by
      rw [hcore1, e1]
    have hb2 : normpathCore (c :: rest') = joinC '/' ((c :: a) :: Y) := by
      rw [hcore2, e2]
    have hne1 : ¬ normpathCore (dots ++ (c :: rest')) = [] := by
      rw [hb1]
      exact joinC_cons_ne_nil _ Y hf₁ne
    have hne2 : ¬ normpathCore (c :: rest') = [] := by
      rw [hb2]
      exact joinC_cons_ne_nil _ Y hf₂ne
    have hdDS : ∀ ch ∈ dots, isDS ch = true := by
      intro ch hm
      rw [hall ch hm]
      decide
    have hdw : (normpathCore (dots ++ (c :: rest'))).dropWhile isDS
        = (normpathCore (c :: rest')).dropWhile isDS := by
      rw [hb1, hb2]
      cases Y with
      | nil =>
        show ((dots ++ (c :: a)) : List Char).dropWhile isDS
          = ((c :: a) : List Char).dropWhile isDS
        exact dropWhile_all_sat_append dots (c :: a) hdDS
      | cons q Y' =>
        show ((dots ++ (c :: a)) ++ '/' :: joinC '/' (q :: Y')).dropWhile isDS
          = ((c :: a) ++ '/' :: joinC '/' (q :: Y')).dropWhile isDS
        rw [List.append_assoc]
        exact dropWhile_all_sat_append dots _ hdDS
    rw [hpn1, hpn2, if_neg hne1, if_neg hne2]
    show (⟨(normpathCore (dots ++ (c :: rest'))).dropWhile isDS⟩ : String)
        = ⟨(normpathCore (c :: rest')).dropWhile isDS⟩
    rw [hdw]
  · have hcoreEq : normpathCore (dots ++ (c :: rest')) = normpathCore (c :: rest') := by
      rw [hcore1, hcore2, he]
    rw [hpn1, hpn2, hcoreEq]

/-- C10: `MultiFolderBackend.key_to_path` strips every leading `.` and
`/` character of the normalized key — not only `..` traversal prefixes.
For every key whose first segment begins with one or more leading dots
followed by an ordinary character (neither `.` nor `/`), the derived
path equals that of the same key with those leading dots removed, yet
the two keys are distinct — so distinct keys can collide on one
physical path; in particular `..foo/bar` collides with `foo/bar`, and
`.hidden/x` maps to `root/dir/hidden/x.yaml`. -/
theorem C10_leading_dots_stripped :
    (∀ (root ext : String) (dots rest : List Char) (c : Char),
      dots ≠ [] → (∀ ch ∈ dots, ch = '.') →
      rest.head? = some c → c ≠ '.' → c ≠ '/' →
      keyToPathMulti root ext ⟨dots ++ rest⟩ = keyToPathMulti root ext ⟨rest⟩ ∧
      (⟨dots ++ rest⟩ : String) ≠ ⟨rest⟩) ∧
    keyToPathMulti "root/dir" (mkFileExt "yaml") "..foo/bar"
      = keyToPathMulti "root/dir" (mkFileExt "yaml") "foo/bar" ∧
    keyToPathMulti "root/dir" (mkFileExt "yaml") "..foo/bar" = "root/dir/foo/bar.yaml" ∧
    keyToPathMulti "root/dir" (mkFileExt "yaml") ".hidden/x" = "root/dir/hidden/x.yaml" ∧
    ("..foo/bar" : String) ≠ "foo/bar" := by
  refine ⟨?_, by decide, by decide, by decide, by decide⟩
  intro root ext dots rest c hd hall hc hcd hcs
  constructor
  · exact keyToPathMulti_congr root ext
      (dropDotSlash_prepend_dots dots rest c hd hall hc hcd hcs)
  · intro e
    have e2 : dots ++ rest = rest := congrArg String.data e
    have hlen : dots.length = 0 := by
      have h3 := congrArg List.length e2
      rw [List.length_append] at h3
      omega
    exact hd (List.length_eq_zero.mp hlen)

/-- Witness for C10: the general dot-stripping collision applied to the
key `..foo/bar` under root `root/dir`. -/
theorem C10_leading_dots_stripped_witness :
    keyToPathMulti "root/dir" ".yaml" ⟨['.', '.'] ++ "foo/bar".data⟩
      = keyToPathMulti "root/dir" ".yaml" ⟨"foo/bar".data⟩ ∧
    (⟨['.', '.'] ++ "foo/bar".data⟩ : String) ≠ ⟨"foo/bar".data⟩ :=
  C10_leading_dots_stripped.1 "root/dir" ".yaml" ['.', '.'] "foo/bar".data 'f'
    (by decide) (by decide) (by decide) (by decide) (by decide)
